import Mathlib

/-!
Verification development for the kudzu trace-to-document compaction pipeline
(`scripts/claude/kudzu-context.py`).

The pure core of the script is embedded shallowly below: traces are records
with a purpose tag, a JSON-like content payload and a JSON-like timestamp;
Python strings are Lean `String`s manipulated through their character lists;
Python integers are `Int`/`Nat`.  The impure clock read in the renderer is
made explicit as a `now : String` parameter.  Python's `sorted`/`list.sort`
(a stable sort) is embedded as `List.insertionSort`, which is stable for a
total transitive relation, and the allocator's `while` loop is unfolded with
a fuel argument that provably bounds its iteration count (`shrinkLoop_exits`).
-/

namespace Kudzu

open List

/-- JSON-like values appearing in trace payloads and timestamps. -/
inductive JVal where
  | jstr (s : String)
  | jnum (n : Int)
  | jobj (fields : List (String × JVal))
  | jnull

/-- Python truthiness of a `JVal` (`if hint:` etc.). -/
def truthy : JVal → Bool
  | .jstr s => s != ""
  | .jnum n => n != 0
  | .jobj l => !l.isEmpty
  | .jnull => false

mutual
/-- Python `repr` of a `JVal` (dictionary display form). -/
def pyRepr : JVal → String
  | .jstr s => "'" ++ s ++ "'"
  | .jnum n => toString n
  | .jnull => "None"
  | .jobj fields => "\x7b" ++ String.intercalate ", " (pyReprFields fields) ++ "\x7d"

/-- `repr` of the key/value entries of a dictionary. -/
def pyReprFields : List (String × JVal) → List String
  | [] => []
  | kv :: rest => ("'" ++ kv.1 ++ "': " ++ pyRepr kv.2) :: pyReprFields rest
end

/-- Python `str` of a `JVal` (strings render without quotes). -/
def pyStr : JVal → String
  | .jstr s => s
  | v => pyRepr v

/-- Drop leading and trailing whitespace from a character list. -/
def stripChars (cs : List Char) : List Char :=
  ((cs.dropWhile Char.isWhitespace).reverse.dropWhile Char.isWhitespace).reverse

/-- Python `str.strip()`. -/
def pyStrip (s : String) : String := String.mk (stripChars s.data)

/-- Python `str.lower()`. -/
def pyLower (s : String) : String := String.mk (s.data.map Char.toLower)

/-- Python `len` on a string (character count). -/
def pyLen (s : String) : Nat := s.data.length

/-- Python slicing `s[:n]`. -/
def pySlice (s : String) (n : Nat) : String := String.mk (s.data.take n)

/-- Python substring containment `needle in hay`. -/
def pyIn (needle hay : String) : Bool := decide (needle.data <:+: hay.data)

/-- Keywords classifying general traces as workflow notes. -/
def WORKFLOW_KEYWORDS : List String :=
  ["commit", "rsync", "deploy", "ssh", "git", "workflow",
   "build", "make", "docker", "screen", "tmux", "script"]

/-- Keywords classifying general traces as key facts. -/
def FACT_KEYWORDS : List String :=
  ["machine", "repo", "path", "url", "host", "server", "api",
   "port", "directory", "ip", "address", "endpoint", "config"]

/-- One trace record: purpose tag, `reconstruction_hint` payload, vector-clock
timestamp.  An absent field is represented by the dictionary-get default the
script uses (`""` for the purpose, `{}` for the payload and timestamp). -/
structure Trace where
  purpose : String
  reconstruction_hint : JVal
  timestamp : JVal

/-- Priority order of payload fields probed by `extract_content`. -/
def CONTENT_FIELDS : List String := ["content", "summary", "key_events", "event"]

/-- The field-probing loop of `extract_content`: return the stripped value of
the first field holding a truthy string, if any. -/
def firstContentField (fields : List (String × JVal)) : List String → Option String
  | [] => none
  | f :: rest =>
    match fields.lookup f with
    | some (.jstr s) => if s = "" then firstContentField fields rest else some (pyStrip s)
    | _ => firstContentField fields rest

/-- `extract_content(trace)`: pull a human-readable string out of the
`reconstruction_hint`, with stringification fallbacks. -/
def extract_content (trace : Trace) : String :=
  match trace.reconstruction_hint with
  | .jobj fields =>
    match firstContentField fields CONTENT_FIELDS with
    | some s => s
    | none =>
      let fallback := pyStr (.jobj fields)
      if 200 < pyLen fallback then pySlice fallback 200 else fallback
  | hint => if truthy hint then pySlice (pyStr hint) 200 else ""

/-- The numeric values of a timestamp mapping (empty for non-mappings). -/
def numericValues : JVal → List Int
  | .jobj fields => fields.filterMap (fun kv => match kv.2 with | .jnum n => some n | _ => none)
  | _ => []

/-- `extract_recency(trace)`: maximum numeric component of the vector clock,
`0` when there is none or the timestamp is not a mapping. -/
def extract_recency (trace : Trace) : Int :=
  match numericValues trace.timestamp with
  | [] => 0
  | v :: vs => vs.foldl max v

/-- Does the lowercased content contain any of the given keywords? -/
def containsAny (kws : List String) (contentLower : String) : Bool :=
  kws.any (fun kw => pyIn kw contentLower)

/-- `categorize_trace(trace, content)`: map a trace to its section name. -/
def categorize_trace (trace : Trace) (content : String) : String :=
  let purpose := trace.purpose
  let content_lower := pyLower content
  if purpose = "learning" ∨ purpose = "discovery" ∨ purpose = "research" then "Learnings"
  else if purpose = "decision" then "Recent Decisions"
  else if purpose = "session_context" then
    match trace.reconstruction_hint with
    | .jobj fields =>
      if truthy ((fields.lookup "project").getD .jnull) then "Active Projects"
      else if pyIn "project" content_lower then "Active Projects"
      else "Current State"
    | _ =>
      if pyIn "project" content_lower then "Active Projects"
      else "Current State"
  else if containsAny WORKFLOW_KEYWORDS content_lower then "Workflows"
  else if containsAny FACT_KEYWORDS content_lower then "Key Facts"
  else "Current State"

/-- An extracted item: content paired with its recency score. -/
abbrev Item := String × Int

/-- Normalisation applied by the deduplicator before the substring test. -/
def normContent (s : String) : String := pyLower (pyStrip s)

/-- Is the item (with the given content) a duplicate of some kept item? -/
def isDupOf (kept : List Item) (content : String) : Bool :=
  kept.any (fun e => pyIn (normContent content) (normContent e.1))

/-- Content-length-descending ordering: the sort key of
`sorted(items, key=len, reverse=True)`, which is a stable sort. -/
def lenDescRel (a b : Item) : Prop := pyLen b.1 ≤ pyLen a.1

instance : DecidableRel lenDescRel := fun _ _ => Nat.decLe _ _

instance : IsTotal Item lenDescRel := ⟨fun _ _ => Nat.le_total _ _⟩

instance : IsTrans Item lenDescRel := ⟨fun _ _ _ hab hbc => Nat.le_trans hbc hab⟩

/-- The keep/discard walk of `deduplicate` with its `kept` accumulator. -/
def dedupLoop (kept : List Item) : List Item → List Item
  | [] => kept
  | item :: rest =>
    if isDupOf kept item.1 then dedupLoop kept rest
    else dedupLoop (kept ++ [item]) rest

/-- `deduplicate(items)`: drop items whose normalised content is contained in
the normalised content of an already-kept (longer or equal) item. -/
def deduplicate (items : List Item) : List Item :=
  if items = [] then items
  else dedupLoop [] (List.insertionSort lenDescRel items)

/-- The per-run section dictionary: insertion-ordered section/items pairs. -/
abbrev Sections := List (String × List Item)

/-- Fixed order of the six sections in the rendered document. -/
def SECTION_ORDER : List String :=
  ["Current State", "Active Projects", "Key Facts", "Workflows",
   "Learnings", "Recent Decisions"]

/-- The fresh dictionary `{s: [] for s in SECTION_ORDER}`. -/
def initSections : Sections := SECTION_ORDER.map (fun s => (s, []))

/-- `sections[name].append(item)` on the dictionary. -/
def appendItem (secs : Sections) (name : String) (item : Item) : Sections :=
  secs.map (fun e => if e.1 = name then (e.1, e.2 ++ [item]) else e)

/-- Processing of one trace inside the `build_sections` loop: skip empty or
`"\x7b\x7d"` content, otherwise append the extracted item to its section. -/
def addTrace (secs : Sections) (trace : Trace) : Sections :=
  let content := extract_content trace
  if content = "" ∨ content = "\x7b\x7d" then secs
  else
    let recency := extract_recency trace
    let sectionName := categorize_trace trace content
    if secs.any (fun e => e.1 = sectionName) then appendItem secs sectionName (content, recency)
    else secs

/-- Recency-descending ordering (`sort(key=recency, reverse=True)`, stable). -/
def recencyDescRel (a b : Item) : Prop := b.2 ≤ a.2

instance : DecidableRel recencyDescRel := fun _ _ => Int.decLe _ _

/-- `build_sections(all_traces)`: categorize every trace, then deduplicate and
recency-sort each section. -/
def build_sections (all_traces : List Trace) : Sections :=
  let secs := all_traces.foldl addTrace initSections
  secs.map (fun e => (e.1, List.insertionSort recencyDescRel (deduplicate e.2)))

/-- `truncate_line(text)`: single-line the text and hard-truncate it to 120
characters with an ellipsis marker. -/
def truncate_line (text : String) : String :=
  let t := pyStrip (String.mk (text.data.map (fun c => if c = '\n' then ' ' else c)))
  if 120 < pyLen t then pySlice t (120 - 3) ++ "..." else t

/-- The hard ceiling on rendered lines. -/
def LINE_BUDGET : Nat := 180

/-- The four header lines of the document (the generation time is passed in
explicitly, standing for the script's clock read). -/
def headerLines (now : String) : List String :=
  ["# Kudzu Memory Context", "",
   "_Auto-generated by kudzu-context.py at " ++ now ++ "_", ""]

/-- Dictionary lookup with a default (`d.get(k, default)`). -/
def lookupD (l : List (String × α)) (k : String) (d : α) : α := (l.lookup k).getD d

/-- The non-empty sections, in the fixed section order. -/
def activeSections (secs : Sections) : List (String × List Item) :=
  (SECTION_ORDER.map (fun s => (s, lookupD secs s []))).filter (fun e => !e.2.isEmpty)

/-- Total of the per-section line shares. -/
def sumShares (ps : List (String × Nat)) : Nat := (ps.map (fun e => e.2)).sum

/-- Largest share value (`max(per_section.values())`, `0` when empty). -/
def maxShareVal (ps : List (String × Nat)) : Nat := (ps.map (fun e => e.2)).foldr max 0

/-- Decrement the first entry holding the value `m`
(`per_section[max(per_section, key=per_section.get)] -= 1`). -/
def decFirstMax (m : Nat) : List (String × Nat) → List (String × Nat)
  | [] => []
  | e :: rest => if e.2 = m then (e.1, e.2 - 1) :: rest else e :: decFirstMax m rest

/-- Fuel-indexed unfolding of the greedy largest-first shrink `while` loop.
Each iteration lowers the share total by exactly one, so `sumShares ps` fuel
always outlasts the loop (`shrinkLoop_exits`). -/
def shrinkLoop (available : Nat) : Nat → List (String × Nat) → List (String × Nat)
  | 0, ps => ps
  | fuel + 1, ps =>
    if available < sumShares ps ∧ ps.any (fun e => 1 < e.2) then
      shrinkLoop available fuel (decFirstMax (maxShareVal ps) ps)
    else ps

/-- The `while sum > available and any(v > 1)` loop of the budget allocator. -/
def shrinkShares (available : Nat) (ps : List (String × Nat)) : List (String × Nat) :=
  shrinkLoop available (sumShares ps) ps

/-- The proportional share computation, floor division with a minimum of 1. -/
def initShares (available : Nat) (active : List (String × List Item)) : List (String × Nat) :=
  let total := (active.map (fun e => e.2.length)).sum
  active.map (fun e => (e.1, if 0 < total then max 1 (available * e.2.length / total) else 1))

/-- `available`: the line budget minus header and per-section overhead,
floored at the number of active sections. -/
def availableFor (nActive : Nat) : Nat :=
  let avail0 := LINE_BUDGET - 4 - 2 * nActive
  if avail0 < nActive then nActive else avail0

/-- The lines rendered for one active section: heading, blank, up to the
allocated number of bullets, trailing blank. -/
def sectionLines (shares : List (String × Nat)) (e : String × List Item) : List String :=
  let max_items := lookupD shares e.1 3
  ["## " ++ e.1, ""] ++ (e.2.take max_items).map (fun it => "- " ++ truncate_line it.1) ++ [""]

/-- The truncation notice appended when the budget is exceeded. -/
def TRUNC_NOTICE : String := "_... (truncated to fit line budget)_"

/-- The notice emitted when every section is empty. -/
def NO_TRACES_LINE : String := "_No traces found in Kudzu._"

/-- The allocated rendering before the final budget trim: header lines plus
every active section's lines under the computed shares. -/
def renderRawLines (now : String) (secs : Sections) : List String :=
  let active := activeSections secs
  let available := availableFor active.length
  let shares := shrinkShares available (initShares available active)
  headerLines now ++ active.flatMap (sectionLines shares)

/-- The final line sequence of `render_memory_md`: the no-data notice when all
sections are empty, otherwise the allocated rendering trimmed to the budget. -/
def render_lines (now : String) (secs : Sections) : List String :=
  if (activeSections secs).isEmpty then headerLines now ++ [NO_TRACES_LINE]
  else
    let raw := renderRawLines now secs
    if LINE_BUDGET < raw.length then raw.take (LINE_BUDGET - 1) ++ [TRUNC_NOTICE]
    else raw

/-- `render_memory_md(sections)`: the rendered document. -/
def render_memory_md (now : String) (secs : Sections) : String :=
  String.intercalate "\n" (render_lines now secs)

/-- `cleanFrom kept l`: walking `l` with accumulator `kept`, no element is
flagged as a duplicate at the moment it is processed. -/
def cleanFrom (kept : List Item) : List Item → Prop
  | [] => True
  | x :: rest => isDupOf kept x.1 = false ∧ cleanFrom (kept ++ [x]) rest

/-- A sections input with five large sections and one single-item section:
its allocated rendering overruns the line budget. -/
def overflowSecs : Sections :=
  [("Current State", List.replicate 100 ("x", (0 : Int))),
   ("Active Projects", List.replicate 100 ("x", (0 : Int))),
   ("Key Facts", List.replicate 100 ("x", (0 : Int))),
   ("Workflows", List.replicate 100 ("x", (0 : Int))),
   ("Learnings", List.replicate 100 ("x", (0 : Int))),
   ("Recent Decisions", [("z", (0 : Int))])]

/-- A one-section input whose allocated rendering fits the budget. -/
def smallSecs : Sections := [("Key Facts", [("hello world", (3 : Int))])]

/-- A trace carrying the spec's example vector clock. -/
def recencyExampleTrace : Trace :=
  ⟨"memory", .jnull, .jobj [("node-a", .jnum 5), ("node-b", .jnum 9)]⟩

/-- A trace with an unclassified purpose, for the keyword fallback scenario. -/
def observationTrace : Trace := ⟨"observation", .jnull, .jnull⟩

/-- A trace whose first present content field is whitespace-only. -/
def blankContentTrace : Trace := ⟨"memory", .jobj [("content", .jstr "   ")], .jnull⟩

theorem dedupLoop_spec :
    ∀ (l kept : List Item), ∃ extra,
      dedupLoop kept l = kept ++ extra ∧ extra <+ l ∧ cleanFrom kept extra := by
  intro l
  induction l with
  | nil => exact fun kept => ⟨[], by simp [dedupLoop], List.nil_sublist _, trivial⟩
  | cons x rest ih =>
    intro kept
    cases hdup : isDupOf kept x.1 with
    | true =>
      obtain ⟨extra, heq, hsub, hclean⟩ := ih kept
      exact ⟨extra, by simp [dedupLoop, hdup, heq], hsub.cons x, hclean⟩
    | false =>
      obtain ⟨extra, heq, hsub, hclean⟩ := ih (kept ++ [x])
      refine ⟨x :: extra, ?_, hsub.cons₂ x, hdup, hclean⟩
      simp only [dedupLoop, hdup, Bool.false_eq_true, if_false, heq, List.append_assoc,
        List.singleton_append]

theorem dedupLoop_of_cleanFrom :
    ∀ (l kept : List Item), cleanFrom kept l → dedupLoop kept l = kept ++ l := by
  intro l
  induction l with
  | nil => intro kept _; simp [dedupLoop]
  | cons x rest ih =>
    intro kept h
    obtain ⟨h1, h2⟩ := h
    calc dedupLoop kept (x :: rest) = dedupLoop (kept ++ [x]) rest := by
          simp [dedupLoop, h1]
      _ = (kept ++ [x]) ++ rest := ih (kept ++ [x]) h2
      _ = kept ++ (x :: rest) := by simp

theorem dedupLoop_missing :
    ∀ (l kept : List Item) (b : Item), b ∈ l → b ∉ dedupLoop kept l →
      ∃ c ∈ dedupLoop kept l, pyIn (normContent b.1) (normContent c.1) = true := by
  intro l
  induction l with
  | nil => intro kept b hb; cases hb
  | cons x rest ih =>
    intro kept b hb hnot
    cases hdup : isDupOf kept x.1 with
    | true =>
      have hred : dedupLoop kept (x :: rest) = dedupLoop kept rest := by
        simp [dedupLoop, hdup]
      rw [hred] at hnot ⊢
      rcases List.mem_cons.mp hb with hbx | hb'
      · obtain ⟨c, hc, ht⟩ := List.any_eq_true.mp hdup
        obtain ⟨extra, heq, -, -⟩ := dedupLoop_spec rest kept
        rw [heq]
        refine ⟨c, List.mem_append_left _ hc, ?_⟩
        rw [hbx]
        exact ht
      · exact ih kept b hb' hnot
    | false =>
      have hred : dedupLoop kept (x :: rest) = dedupLoop (kept ++ [x]) rest := by
        simp [dedupLoop, hdup]
      rw [hred] at hnot ⊢
      rcases List.mem_cons.mp hb with hbx | hb'
      · exfalso
        obtain ⟨extra, heq, -, -⟩ := dedupLoop_spec rest (kept ++ [x])
        exact hnot (heq ▸ List.mem_append_left _
          (List.mem_append_right _ (List.mem_singleton.mpr hbx)))
      · exact ih (kept ++ [x]) b hb' hnot

theorem deduplicate_eq_dedupLoop {items : List Item} (h : items ≠ []) :
    deduplicate items = dedupLoop [] (List.insertionSort lenDescRel items) := by
  simp [deduplicate, h]

/-- C3: deduplication is idempotent — applying `deduplicate` to its own output
returns that output unchanged, in the same order. -/
theorem deduplicate_idempotent (items : List Item) :
    deduplicate (deduplicate items) = deduplicate items := by
  by_cases h0 : items = []
  · subst h0; rfl
  · obtain ⟨extra, heq, hsub, hclean⟩ := dedupLoop_spec (List.insertionSort lenDescRel items) []
    rw [List.nil_append] at heq
    have hout : deduplicate items = extra := (deduplicate_eq_dedupLoop h0).trans heq
    rw [hout]
    by_cases hext : extra = []
    · subst hext; rfl
    · have hpair : extra.Pairwise lenDescRel :=
        List.Pairwise.sublist hsub (List.sorted_insertionSort lenDescRel items)
      calc deduplicate extra = dedupLoop [] (List.insertionSort lenDescRel extra) :=
            deduplicate_eq_dedupLoop hext
        _ = dedupLoop [] extra := by rw [List.Sorted.insertionSort_eq hpair]
        _ = [] ++ extra := dedupLoop_of_cleanFrom extra [] hclean
        _ = extra := List.nil_append extra

/-- C4: for a non-empty input, the output of `deduplicate` contains an item of
globally maximal content length — the longest item is never discarded. -/
theorem deduplicate_keeps_longest (items : List Item) (h : items ≠ []) :
    ∃ p, p ∈ deduplicate items ∧ p ∈ items ∧ ∀ q ∈ items, pyLen q.1 ≤ pyLen p.1 := by
  have hms : List.insertionSort lenDescRel items ≠ [] := by
    intro hc
    apply h
    have := congrArg List.length hc
    simpa using this
  obtain ⟨x, rest, hxr⟩ := List.exists_cons_of_ne_nil hms
  refine ⟨x, ?_, ?_, ?_⟩
  · rw [deduplicate_eq_dedupLoop h, hxr]
    have hstep : dedupLoop [] (x :: rest) = dedupLoop [x] rest := by
      simp [dedupLoop, isDupOf]
    rw [hstep]
    obtain ⟨extra, heq, -, -⟩ := dedupLoop_spec rest [x]
    rw [heq]
    exact List.mem_append_left _ (List.mem_singleton.mpr rfl)
  · have hx : x ∈ List.insertionSort lenDescRel items := hxr ▸ List.mem_cons_self x rest
    exact (List.mem_insertionSort lenDescRel).mp hx
  · intro q hq
    have hq' : q ∈ x :: rest := hxr ▸ (List.mem_insertionSort lenDescRel).mpr hq
    rcases List.mem_cons.mp hq' with hqx | hq''
    · rw [hqx]
    · have hpair := List.sorted_insertionSort lenDescRel items
      rw [hxr] at hpair
      exact (List.pairwise_cons.mp hpair).1 q hq''

/-- C10: `deduplicate` only removes items — every output pair is an input pair
and occurs no more often than in the input. -/
theorem deduplicate_only_removes (items : List Item) :
    (∀ p ∈ deduplicate items, p ∈ items) ∧
      (∀ p : Item, (deduplicate items).count p ≤ items.count p) := by
  by_cases h0 : items = []
  · subst h0
    exact ⟨fun p hp => hp, fun p => Nat.le_refl _⟩
  · obtain ⟨extra, heq, hsub, -⟩ := dedupLoop_spec (List.insertionSort lenDescRel items) []
    rw [List.nil_append] at heq
    have hsub' : deduplicate items <+ List.insertionSort lenDescRel items := by
      rw [deduplicate_eq_dedupLoop h0, heq]; exact hsub
    constructor
    · intro p hp
      exact (List.mem_insertionSort lenDescRel).mp (hsub'.subset hp)
    · intro p
      have h1 := hsub'.count_le p
      have h2 : (List.insertionSort lenDescRel items).count p = items.count p :=
        (List.perm_insertionSort lenDescRel items).countP_eq _
      omega

/-- The original C5 claim fails: `("AB", 0)` and `("ab", 0)` are distinct items
of equal content length, no third item is present, and yet `deduplicate`
discards the second against the first (normalisation lowercases before the
substring test). -/
theorem dedup_equal_length_refuted :
    (("AB", (0 : Int)) ∈ ([("AB", (0 : Int)), ("ab", 0)] : List Item)) ∧
    (("ab", (0 : Int)) ∈ ([("AB", (0 : Int)), ("ab", 0)] : List Item)) ∧
    (("AB", (0 : Int)) : Item) ≠ ("ab", 0) ∧
    pyLen "AB" = pyLen "ab" ∧
    deduplicate [("AB", (0 : Int)), ("ab", 0)] = [("AB", 0)] ∧
    (("ab", (0 : Int)) ∉ deduplicate [("AB", (0 : Int)), ("ab", 0)]) := by
  refine ⟨?_, ?_, ?_, ?_, ?_, ?_⟩ <;> decide

/-- C5 (amended): two items whose normalised (stripped, lowercased) contents
are distinct and of equal length are never deduplicated against each other —
if one of them is missing from the output, the item that flagged it as a
duplicate is some third item, not the partner. -/
theorem dedup_equal_length_distinct (l : List Item) (a b : Item)
    (ha : a ∈ l) (hb : b ∈ l)
    (hne : normContent a.1 ≠ normContent b.1)
    (hlen : pyLen (normContent a.1) = pyLen (normContent b.1)) :
    (a ∉ deduplicate l → ∃ c ∈ deduplicate l, c ≠ b ∧
        pyIn (normContent a.1) (normContent c.1) = true) ∧
    (b ∉ deduplicate l → ∃ c ∈ deduplicate l, c ≠ a ∧
        pyIn (normContent b.1) (normContent c.1) = true) := by
  have hl : l ≠ [] := fun hc => by subst hc; cases ha
  constructor
  · intro hmiss
    rw [deduplicate_eq_dedupLoop hl] at hmiss ⊢
    obtain ⟨c, hc, ht⟩ := dedupLoop_missing (List.insertionSort lenDescRel l) [] a
      ((List.mem_insertionSort lenDescRel).mpr ha) hmiss
    refine ⟨c, hc, ?_, ht⟩
    intro hcb
    rw [hcb] at ht
    have hinf : (normContent a.1).data <:+: (normContent b.1).data := of_decide_eq_true ht
    have : (normContent a.1).data = (normContent b.1).data := hinf.eq_of_length hlen
    exact hne (congrArg String.mk this)
  · intro hmiss
    rw [deduplicate_eq_dedupLoop hl] at hmiss ⊢
    obtain ⟨c, hc, ht⟩ := dedupLoop_missing (List.insertionSort lenDescRel l) [] b
      ((List.mem_insertionSort lenDescRel).mpr hb) hmiss
    refine ⟨c, hc, ?_, ht⟩
    intro hca
    rw [hca] at ht
    have hinf : (normContent b.1).data <:+: (normContent a.1).data := of_decide_eq_true ht
    have : (normContent b.1).data = (normContent a.1).data := hinf.eq_of_length hlen.symm
    exact hne (congrArg String.mk this).symm

/-- Witness for the amended C5 at a concrete input. -/
theorem dedup_equal_length_distinct_witness :
    ((("ab", (0 : Int)) : Item) ∉ deduplicate [(("ab", (0 : Int)) : Item), ("cd", 1)] →
      ∃ c ∈ deduplicate [(("ab", (0 : Int)) : Item), ("cd", 1)], c ≠ ("cd", 1) ∧
        pyIn (normContent "ab") (normContent c.1) = true) ∧
    ((("cd", (1 : Int)) : Item) ∉ deduplicate [(("ab", (0 : Int)) : Item), ("cd", 1)] →
      ∃ c ∈ deduplicate [(("ab", (0 : Int)) : Item), ("cd", 1)], c ≠ ("ab", 0) ∧
        pyIn (normContent "cd") (normContent c.1) = true) :=
  dedup_equal_length_distinct [("ab", 0), ("cd", 1)] ("ab", 0) ("cd", 1)
    (by decide) (by decide) (by decide) (by decide)

/-- Witness for C4 at a concrete input. -/
theorem deduplicate_keeps_longest_witness :
    ∃ p, p ∈ deduplicate [(("ab", (1 : Int)) : Item), ("c", 2)] ∧
      p ∈ ([(("ab", (1 : Int)) : Item), ("c", 2)] : List Item) ∧
      ∀ q ∈ ([(("ab", (1 : Int)) : Item), ("c", 2)] : List Item), pyLen q.1 ≤ pyLen p.1 :=
  deduplicate_keeps_longest [("ab", 1), ("c", 2)] (by decide)

theorem le_maxShareVal {ps : List (String × Nat)} {e : String × Nat} (h : e ∈ ps) :
    e.2 ≤ maxShareVal ps := by
  induction ps with
  | nil => cases h
  | cons x rest ih =>
    simp only [maxShareVal, List.map_cons, List.foldr_cons]
    rcases List.mem_cons.mp h with h | h
    · rw [h]; exact Nat.le_max_left _ _
    · exact Nat.le_trans (ih h) (Nat.le_max_right _ _)

theorem exists_eq_maxShareVal {ps : List (String × Nat)} (h : 0 < maxShareVal ps) :
    ∃ e ∈ ps, e.2 = maxShareVal ps := by
  induction ps with
  | nil => simp [maxShareVal] at h
  | cons x rest ih =>
    simp only [maxShareVal, List.map_cons, List.foldr_cons] at h ⊢
    rcases Nat.le_total x.2 ((rest.map (fun e => e.2)).foldr max 0) with hle | hle
    · rw [Nat.max_eq_right hle] at h ⊢
      obtain ⟨e, he, hval⟩ := ih h
      exact ⟨e, List.mem_cons_of_mem _ he, hval⟩
    · rw [Nat.max_eq_left hle] at h ⊢
      exact ⟨x, List.mem_cons_self _ _, rfl⟩

theorem sumShares_decFirstMax {m : Nat} (hm : 0 < m) :
    ∀ {ps : List (String × Nat)}, (∃ e ∈ ps, e.2 = m) →
      sumShares (decFirstMax m ps) + 1 = sumShares ps := by
  intro ps
  induction ps with
  | nil => rintro ⟨e, he, -⟩; cases he
  | cons x rest ih =>
    rintro ⟨e, he, hval⟩
    simp only [decFirstMax]
    by_cases hx : x.2 = m
    · simp only [if_pos hx, sumShares, List.map_cons, List.sum_cons]
      omega
    · simp only [if_neg hx, sumShares, List.map_cons, List.sum_cons]
      have hrest : ∃ e ∈ rest, e.2 = m := by
        rcases List.mem_cons.mp he with he' | he'
        · exact absurd (he' ▸ hval) hx
        · exact ⟨e, he', hval⟩
      have := ih hrest
      simp only [sumShares] at this
      omega

/-- `sumShares ps` fuel outlasts the shrink loop: the returned shares satisfy
the `while` loop's exit condition (the total fits, or every share is 1). -/
theorem shrinkLoop_exits (available : Nat) :
    ∀ (fuel : Nat) (ps : List (String × Nat)), sumShares ps ≤ available + fuel →
      sumShares (shrinkLoop available fuel ps) ≤ available ∨
        ∀ e ∈ shrinkLoop available fuel ps, e.2 ≤ 1 := by
  intro fuel
  induction fuel with
  | zero => intro ps h; left; simpa [shrinkLoop] using h
  | succ n ih =>
    intro ps h
    by_cases hg : available < sumShares ps ∧ (ps.any (fun e => 1 < e.2)) = true
    · have hred : shrinkLoop available (n + 1) ps =
          shrinkLoop available n (decFirstMax (maxShareVal ps) ps) := by
        simp only [shrinkLoop, if_pos hg]
      rw [hred]
      apply ih
      obtain ⟨e, he, hgt⟩ := List.any_eq_true.mp hg.2
      have hgt' : 1 < e.2 := of_decide_eq_true hgt
      have hmax : 1 < maxShareVal ps := Nat.lt_of_lt_of_le hgt' (le_maxShareVal he)
      have := sumShares_decFirstMax (m := maxShareVal ps) (by omega)
        (exists_eq_maxShareVal (by omega))
      omega
    · have hred : shrinkLoop available (n + 1) ps = ps := by
        simp only [shrinkLoop, if_neg hg]
      rw [hred]
      rcases Decidable.not_and_iff_or_not.mp hg with hs | ha
      · left; omega
      · right
        intro e he
        have := List.any_eq_false.mp (Bool.eq_false_iff.mpr ha) e he
        simpa using this

theorem decFirstMax_keys (m : Nat) :
    ∀ ps : List (String × Nat), (decFirstMax m ps).map (fun e => e.1) = ps.map (fun e => e.1) := by
  intro ps
  induction ps with
  | nil => rfl
  | cons x rest ih =>
    by_cases hx : x.2 = m <;> simp [decFirstMax, hx, ih]

theorem decFirstMax_pos {m : Nat} (hm : 2 ≤ m) :
    ∀ ps : List (String × Nat), (∀ e ∈ ps, 1 ≤ e.2) → ∀ e ∈ decFirstMax m ps, 1 ≤ e.2 := by
  intro ps
  induction ps with
  | nil => intro _ e he; cases he
  | cons x rest ih =>
    intro hall e he
    by_cases hx : x.2 = m
    · simp only [decFirstMax, if_pos hx] at he
      rcases List.mem_cons.mp he with hex | he'
      · rw [hex]; show 1 ≤ x.2 - 1; omega
      · exact hall e (List.mem_cons_of_mem _ he')
    · simp only [decFirstMax, if_neg hx] at he
      rcases List.mem_cons.mp he with hex | he'
      · rw [hex]; exact hall x (List.mem_cons_self _ _)
      · exact ih (fun e h => hall e (List.mem_cons_of_mem _ h)) e he'

theorem shrinkLoop_keys (available : Nat) :
    ∀ (fuel : Nat) (ps : List (String × Nat)),
      (shrinkLoop available fuel ps).map (fun e => e.1) = ps.map (fun e => e.1) := by
  intro fuel
  induction fuel with
  | zero => intro ps; rfl
  | succ n ih =>
    intro ps
    by_cases hg : available < sumShares ps ∧ (ps.any (fun e => 1 < e.2)) = true
    · have hred : shrinkLoop available (n + 1) ps =
          shrinkLoop available n (decFirstMax (maxShareVal ps) ps) := by
        simp only [shrinkLoop, if_pos hg]
      rw [hred, ih, decFirstMax_keys]
    · simp only [shrinkLoop, if_neg hg]

theorem shrinkLoop_pos (available : Nat) :
    ∀ (fuel : Nat) (ps : List (String × Nat)), (∀ e ∈ ps, 1 ≤ e.2) →
      ∀ e ∈ shrinkLoop available fuel ps, 1 ≤ e.2 := by
  intro fuel
  induction fuel with
  | zero => intro ps h; exact h
  | succ n ih =>
    intro ps hall
    by_cases hg : available < sumShares ps ∧ (ps.any (fun e => 1 < e.2)) = true
    · have hred : shrinkLoop available (n + 1) ps =
          shrinkLoop available n (decFirstMax (maxShareVal ps) ps) := by
        simp only [shrinkLoop, if_pos hg]
      rw [hred]
      obtain ⟨e, he, hgt⟩ := List.any_eq_true.mp hg.2
      have hmax : 2 ≤ maxShareVal ps :=
        Nat.lt_of_lt_of_le (of_decide_eq_true hgt) (le_maxShareVal he)
      exact ih _ (decFirstMax_pos hmax ps hall)
    · simp only [shrinkLoop, if_neg hg]
      exact hall

theorem initShares_keys (available : Nat) (active : List (String × List Item)) :
    (initShares available active).map (fun e => e.1) = active.map (fun e => e.1) := by
  simp [initShares, List.map_map, Function.comp]

theorem initShares_pos (available : Nat) (active : List (String × List Item)) :
    ∀ e ∈ initShares available active, 1 ≤ e.2 := by
  intro e he
  simp only [initShares] at he
  obtain ⟨a, -, rfl⟩ := List.mem_map.mp he
  by_cases ht : 0 < (active.map (fun e => e.2.length)).sum
  · simp only [if_pos ht]
    exact Nat.le_max_left 1 _
  · simp only [if_neg ht]
    exact Nat.le_refl 1

theorem lookup_mem {l : List (String × α)} {k : String} {v : α}
    (h : l.lookup k = some v) : (k, v) ∈ l := by
  obtain ⟨l₁, l₂, hl, -⟩ := List.lookup_eq_some_iff.mp h
  rw [hl]
  exact List.mem_append_right _ (List.mem_cons_self _ _)

theorem lookup_isSome_of_key {l : List (String × α)} {k : String}
    (h : k ∈ l.map (fun e => e.1)) : (l.lookup k).isSome := by
  obtain ⟨e, he, hk⟩ := List.mem_map.mp h
  exact List.lookup_isSome_iff.mpr ⟨e, he, by simp [hk]⟩

theorem lookupD_shares_pos {ps : List (String × Nat)} {k : String}
    (hk : k ∈ ps.map (fun e => e.1)) (hall : ∀ e ∈ ps, 1 ≤ e.2) :
    1 ≤ lookupD ps k 3 := by
  obtain ⟨v, hv⟩ := Option.isSome_iff_exists.mp (lookup_isSome_of_key hk)
  have := hall (k, v) (lookup_mem hv)
  simp only [lookupD, hv, Option.getD_some]
  exact this

/-- C1: the document never exceeds the 180-line budget; whenever the allocated
rendering would overrun it, the lines are cut to `budget − 1` and exactly one
truncation notice is appended. -/
theorem render_within_budget (now : String) (secs : Sections) :
    (render_lines now secs).length ≤ LINE_BUDGET ∧
      (LINE_BUDGET < (renderRawLines now secs).length →
        render_lines now secs =
          (renderRawLines now secs).take (LINE_BUDGET - 1) ++ [TRUNC_NOTICE]) := by
  by_cases hempty : (activeSections secs).isEmpty = true
  · have hnil : activeSections secs = [] := List.isEmpty_iff.mp hempty
    constructor
    · simp [render_lines, hempty, headerLines, LINE_BUDGET]
    · intro hover
      exfalso
      simp [renderRawLines, hnil, headerLines, LINE_BUDGET] at hover
  · by_cases hover : LINE_BUDGET < (renderRawLines now secs).length
    · have hred : render_lines now secs =
          (renderRawLines now secs).take (LINE_BUDGET - 1) ++ [TRUNC_NOTICE] := by
        simp only [render_lines, if_neg hempty, if_pos hover]
      refine ⟨?_, fun _ => hred⟩
      rw [hred, List.length_append, List.length_take]
      simp [LINE_BUDGET]
    · have hred : render_lines now secs = renderRawLines now secs := by
        simp only [render_lines, if_neg hempty, if_neg hover]
      exact ⟨hred ▸ Nat.le_of_not_lt hover, fun h => absurd h hover⟩

set_option maxRecDepth 400000 in
/-- Witness for C1 at a concrete overflowing input: the allocated rendering has
183 lines, the document is cut to 179 lines plus the truncation notice. -/
theorem render_within_budget_witness :
    (render_lines "2026-10-12" overflowSecs).length ≤ LINE_BUDGET ∧
      render_lines "2026-10-12" overflowSecs =
        (renderRawLines "2026-10-12" overflowSecs).take (LINE_BUDGET - 1) ++ [TRUNC_NOTICE] :=
  ⟨(render_within_budget "2026-10-12" overflowSecs).1,
   (render_within_budget "2026-10-12" overflowSecs).2 (by decide)⟩

theorem mem_sectionLines_head (shares : List (String × Nat)) (e : String × List Item) :
    ("## " ++ e.1) ∈ sectionLines shares e := by
  simp [sectionLines]

theorem mem_sectionLines_bullet (shares : List (String × Nat)) (e : String × List Item)
    (h1 : 1 ≤ lookupD shares e.1 3) (h2 : e.2 ≠ []) :
    ∃ it ∈ e.2, ("- " ++ truncate_line it.1) ∈ sectionLines shares e := by
  obtain ⟨x, rest, hx⟩ := List.exists_cons_of_ne_nil h2
  refine ⟨x, by rw [hx]; exact List.mem_cons_self _ _, ?_⟩
  simp only [sectionLines]
  apply List.mem_append_left
  apply List.mem_append_right
  apply List.mem_map.mpr
  refine ⟨x, ?_, rfl⟩
  rw [hx]
  cases hk : lookupD shares e.1 3 with
  | zero => omega
  | succ n => exact List.mem_cons_self _ _

/-- The original C2 claim fails: in `overflowSecs` the "Recent Decisions"
section is active and `available` is at least the active-section count, yet
the final budget trim removes the whole section — neither its heading nor any
bullet for its item survives in the rendered document. -/
theorem render_section_starved :
    lookupD overflowSecs "Recent Decisions" [] ≠ [] ∧
    (activeSections overflowSecs).length ≤ availableFor (activeSections overflowSecs).length ∧
    ("## Recent Decisions" ∉ render_lines "T" overflowSecs) ∧
    (("- " ++ truncate_line "z") ∉ render_lines "T" overflowSecs) := by
  refine ⟨by decide, by decide, ?_, ?_⟩ <;>
    · set_option maxRecDepth 400000 in decide

/-- C2 (amended): every active section appears with its heading and at least
one bullet line in the allocated rendering, hence in the final document
whenever the allocated rendering already fits the line budget (otherwise the
final trim may cut trailing sections). -/
theorem render_keeps_active_sections (now : String) (secs : Sections)
    (hfit : (renderRawLines now secs).length ≤ LINE_BUDGET) :
    ∀ name ∈ SECTION_ORDER, lookupD secs name [] ≠ [] →
      ("## " ++ name) ∈ render_lines now secs ∧
        ∃ it ∈ lookupD secs name [], ("- " ++ truncate_line it.1) ∈ render_lines now secs := by
  intro name hname hne
  have hactive : (name, lookupD secs name []) ∈ activeSections secs := by
    unfold activeSections
    apply List.mem_filter.mpr
    refine ⟨List.mem_map.mpr ⟨name, hname, rfl⟩, ?_⟩
    simp [hne]
  have hnonempty : ¬ (activeSections secs).isEmpty = true := by
    intro hc
    rw [List.isEmpty_iff.mp hc] at hactive
    cases hactive
  have hrender : render_lines now secs = renderRawLines now secs := by
    simp only [render_lines, if_neg hnonempty, if_neg (Nat.not_lt.mpr hfit)]
  have hshare : 1 ≤ lookupD
      (shrinkShares (availableFor (activeSections secs).length)
        (initShares (availableFor (activeSections secs).length) (activeSections secs))) name 3 := by
    apply lookupD_shares_pos
    · rw [shrinkShares, shrinkLoop_keys, initShares_keys]
      exact List.mem_map.mpr ⟨(name, lookupD secs name []), hactive, rfl⟩
    · exact shrinkLoop_pos _ _ _ (initShares_pos _ _)
  have hraw : renderRawLines now secs = headerLines now ++
      (activeSections secs).flatMap (sectionLines
        (shrinkShares (availableFor (activeSections secs).length)
          (initShares (availableFor (activeSections secs).length) (activeSections secs)))) := rfl
  constructor
  · rw [hrender, hraw]
    apply List.mem_append_right
    exact List.mem_flatMap_of_mem hactive (mem_sectionLines_head _ _)
  · obtain ⟨it, hit, hbul⟩ := mem_sectionLines_bullet _ (name, lookupD secs name []) hshare hne
    refine ⟨it, hit, ?_⟩
    rw [hrender, hraw]
    exact List.mem_append_right _ (List.mem_flatMap_of_mem hactive hbul)

/-- Witness for the amended C2 at a concrete input that fits the budget. -/
theorem render_keeps_active_sections_witness :
    ("## Key Facts" ∈ render_lines "2026-10-12" smallSecs) ∧
      ∃ it ∈ lookupD smallSecs "Key Facts" [],
        ("- " ++ truncate_line it.1) ∈ render_lines "2026-10-12" smallSecs :=
  render_keeps_active_sections "2026-10-12" smallSecs (by decide) "Key Facts"
    (by decide) (by decide)

theorem le_foldl_max (a : Int) (l : List Int) :
    a ≤ l.foldl max a ∧ ∀ x ∈ l, x ≤ l.foldl max a := by
  induction l generalizing a with
  | nil => exact ⟨Int.le_refl a, fun x hx => absurd hx (List.not_mem_nil x)⟩
  | cons y ys ih =>
    simp only [List.foldl_cons]
    refine ⟨Int.le_trans (Int.le_max_left a y) (ih (max a y)).1, ?_⟩
    intro x hx
    rcases List.mem_cons.mp hx with hxy | hx'
    · rw [hxy]
      exact Int.le_trans (Int.le_max_right a y) (ih (max a y)).1
    · exact (ih (max a y)).2 x hx'

theorem foldl_max_mem (a : Int) (l : List Int) :
    l.foldl max a = a ∨ l.foldl max a ∈ l := by
  induction l generalizing a with
  | nil => exact Or.inl rfl
  | cons y ys ih =>
    simp only [List.foldl_cons]
    rcases ih (max a y) with h | h
    · rcases max_choice a y with hm | hm
      · exact Or.inl (h.trans hm)
      · exact Or.inr (List.mem_cons.mpr (Or.inl (h.trans hm)))
    · exact Or.inr (List.mem_cons_of_mem _ h)

/-- C6: the recency score is the maximum of all numeric values of the
timestamp mapping, and `0` when the timestamp is not a mapping or carries no
numeric value; the spec's example vector clock scores 9. -/
theorem extract_recency_max (trace : Trace) :
    (numericValues trace.timestamp ≠ [] →
      extract_recency trace ∈ numericValues trace.timestamp ∧
        ∀ v ∈ numericValues trace.timestamp, v ≤ extract_recency trace) ∧
    (numericValues trace.timestamp = [] → extract_recency trace = 0) ∧
    ((∀ fields, trace.timestamp ≠ .jobj fields) → extract_recency trace = 0) ∧
    extract_recency recencyExampleTrace = 9 := by
  refine ⟨?_, ?_, ?_, by decide⟩
  · intro hne
    unfold extract_recency
    cases hnv : numericValues trace.timestamp with
    | nil => exact absurd hnv hne
    | cons v vs =>
      constructor
      · show vs.foldl max v ∈ v :: vs
        rcases foldl_max_mem v vs with h | h
        · rw [h]; exact List.mem_cons_self _ _
        · exact List.mem_cons_of_mem _ h
      · show ∀ w ∈ v :: vs, w ≤ vs.foldl max v
        intro w hw
        rcases List.mem_cons.mp hw with hwv | hw'
        · rw [hwv]; exact (le_foldl_max v vs).1
        · exact (le_foldl_max v vs).2 w hw'
  · intro h
    unfold extract_recency
    rw [h]
  · intro h
    have hnv : numericValues trace.timestamp = [] := by
      cases hts : trace.timestamp with
      | jobj fields => exact absurd hts (h fields)
      | jstr s => rfl
      | jnum n => rfl
      | jnull => rfl
    unfold extract_recency
    rw [hnv]

/-- Witness for C6: the example clock is non-trivial and yields 9. -/
theorem extract_recency_max_witness :
    extract_recency recencyExampleTrace ∈ numericValues recencyExampleTrace.timestamp ∧
      extract_recency recencyExampleTrace = 9 :=
  ⟨((extract_recency_max recencyExampleTrace).1 (by decide)).1,
   (extract_recency_max recencyExampleTrace).2.2.2⟩

/-- C7: the initial share of every active section is the exact integer floor
of `available * item_count / total_item_count`, floored at a minimum of 1 —
characterised here without mentioning division: a value `s ≥ 1` that is 1 when
the ratio is below 1, and otherwise satisfies `s·total ≤ available·count <
(s+1)·total`. -/
theorem initShares_floor (available : Nat) (active : List (String × List Item))
    (name : String) (items : List Item) (hmem : (name, items) ∈ active)
    (hpos : 0 < (active.map (fun e => e.2.length)).sum) :
    ∃ s, (name, s) ∈ initShares available active ∧ 1 ≤ s ∧
      (available * items.length < (active.map (fun e => e.2.length)).sum → s = 1) ∧
      ((active.map (fun e => e.2.length)).sum ≤ available * items.length →
        s * (active.map (fun e => e.2.length)).sum ≤ available * items.length ∧
          available * items.length <
            (s + 1) * (active.map (fun e => e.2.length)).sum) := by
  refine ⟨if 0 < (active.map (fun e => e.2.length)).sum then
      max 1 (available * items.length / (active.map (fun e => e.2.length)).sum) else 1,
    ?_, ?_, ?_, ?_⟩
  · exact List.mem_map.mpr ⟨(name, items), hmem, rfl⟩
  · rw [if_pos hpos]
    exact Nat.le_max_left 1 _
  · intro hlt
    rw [if_pos hpos, Nat.div_eq_of_lt hlt]
    exact Nat.max_eq_left (Nat.zero_le 1)
  · intro hge
    rw [if_pos hpos]
    have h1 : 1 ≤ available * items.length / (active.map (fun e => e.2.length)).sum :=
      (Nat.one_le_div_iff hpos).mpr hge
    rw [Nat.max_eq_right h1]
    constructor
    · exact Nat.div_mul_le_self _ _
    · have hdm := Nat.div_add_mod (available * items.length)
        ((active.map (fun e => e.2.length)).sum)
      have hm := Nat.mod_lt (available * items.length) hpos
      calc available * items.length
          = (active.map (fun e => e.2.length)).sum *
              (available * items.length / (active.map (fun e => e.2.length)).sum) +
              available * items.length % (active.map (fun e => e.2.length)).sum := hdm.symm
        _ < (active.map (fun e => e.2.length)).sum *
              (available * items.length / (active.map (fun e => e.2.length)).sum) +
              (active.map (fun e => e.2.length)).sum := by omega
        _ = (available * items.length / (active.map (fun e => e.2.length)).sum + 1) *
              (active.map (fun e => e.2.length)).sum := by ring

/-- Witness for C7 at a concrete allocation: `available = 10`, counts 3 and 1,
total 4; the first section's share is `⌊30/4⌋ = 7`. -/
theorem initShares_floor_witness :
    ∃ s, ("A", s) ∈ initShares 10
        [("A", [("x", 0), ("y", 0), ("z", 0)]), ("B", [("w", 0)])] ∧ 1 ≤ s ∧
      (10 * [(("x" : String), (0 : Int)), ("y", 0), ("z", 0)].length <
          ([("A", [(("x" : String), (0 : Int)), ("y", 0), ("z", 0)]),
            ("B", [("w", 0)])].map (fun e => e.2.length)).sum → s = 1) ∧
      (([("A", [(("x" : String), (0 : Int)), ("y", 0), ("z", 0)]),
          ("B", [("w", 0)])].map (fun e => e.2.length)).sum ≤
          10 * [(("x" : String), (0 : Int)), ("y", 0), ("z", 0)].length →
        s * ([("A", [(("x" : String), (0 : Int)), ("y", 0), ("z", 0)]),
            ("B", [("w", 0)])].map (fun e => e.2.length)).sum ≤
            10 * [(("x" : String), (0 : Int)), ("y", 0), ("z", 0)].length ∧
          10 * [(("x" : String), (0 : Int)), ("y", 0), ("z", 0)].length <
            (s + 1) * ([("A", [(("x" : String), (0 : Int)), ("y", 0), ("z", 0)]),
              ("B", [("w", 0)])].map (fun e => e.2.length)).sum) :=
  initShares_floor 10 [("A", [("x", 0), ("y", 0), ("z", 0)]), ("B", [("w", 0)])]
    "A" [("x", 0), ("y", 0), ("z", 0)] (by decide) (by decide)

theorem containsAny_iff_exists (kws : List String) (s : String) :
    containsAny kws s = true ↔ ∃ kw ∈ kws, kw.data <:+: s.data := by
  simp [containsAny, pyIn]

/-- C8: for a trace whose purpose is none of the five classified tags, the
section is "Workflows" when the lowercased content contains a workflow
keyword, else "Key Facts" when it contains a fact keyword, else
"Current State"; the spec's api/port scenario lands in "Key Facts". -/
theorem categorize_general_keywords (trace : Trace) (content : String)
    (h : trace.purpose ∉ ["learning", "discovery", "research", "decision", "session_context"]) :
    (categorize_trace trace content = "Workflows" ↔
      ∃ kw ∈ WORKFLOW_KEYWORDS, kw.data <:+: (pyLower content).data) ∧
    (categorize_trace trace content = "Key Facts" ↔
      (¬ ∃ kw ∈ WORKFLOW_KEYWORDS, kw.data <:+: (pyLower content).data) ∧
        ∃ kw ∈ FACT_KEYWORDS, kw.data <:+: (pyLower content).data) ∧
    (categorize_trace trace content = "Current State" ↔
      (¬ ∃ kw ∈ WORKFLOW_KEYWORDS, kw.data <:+: (pyLower content).data) ∧
        ¬ ∃ kw ∈ FACT_KEYWORDS, kw.data <:+: (pyLower content).data) ∧
    categorize_trace observationTrace "The api server runs on port 4000" = "Key Facts" := by
  simp only [List.mem_cons, List.not_mem_nil, or_false, not_or] at h
  obtain ⟨h1, h2, h3, h4, h5⟩ := h
  have hred : categorize_trace trace content =
      (if containsAny WORKFLOW_KEYWORDS (pyLower content) then "Workflows"
       else if containsAny FACT_KEYWORDS (pyLower content) then "Key Facts"
       else "Current State") := by
    unfold categorize_trace
    rw [if_neg (by simp [h1, h2, h3]), if_neg h4, if_neg h5]
  have hwfiff := containsAny_iff_exists WORKFLOW_KEYWORDS (pyLower content)
  have hfiff := containsAny_iff_exists FACT_KEYWORDS (pyLower content)
  cases hwf : containsAny WORKFLOW_KEYWORDS (pyLower content) with
  | true =>
    have hW := hwfiff.mp hwf
    rw [hwf, if_pos rfl] at hred
    refine ⟨?_, ?_, ?_, by decide⟩
    · exact ⟨fun _ => hW, fun _ => hred⟩
    · constructor
      · intro hc
        rw [hred] at hc
        exact absurd hc (by decide)
      · rintro ⟨hnW, -⟩
        exact absurd hW hnW
    · constructor
      · intro hc
        rw [hred] at hc
        exact absurd hc (by decide)
      · rintro ⟨hnW, -⟩
        exact absurd hW hnW
  | false =>
    have hnW : ¬ ∃ kw ∈ WORKFLOW_KEYWORDS, kw.data <:+: (pyLower content).data := by
      intro hx
      exact Bool.false_ne_true (hwf.symm.trans (hwfiff.mpr hx))
    rw [hwf] at hred
    simp only [Bool.false_eq_true, if_false] at hred
    cases hf : containsAny FACT_KEYWORDS (pyLower content) with
    | true =>
      have hF := hfiff.mp hf
      rw [hf, if_pos rfl] at hred
      refine ⟨?_, ?_, ?_, by decide⟩
      · constructor
        · intro hc
          rw [hred] at hc
          exact absurd hc (by decide)
        · intro hx
          exact absurd hx hnW
      · exact ⟨fun _ => ⟨hnW, hF⟩, fun _ => hred⟩
      · constructor
        · intro hc
          rw [hred] at hc
          exact absurd hc (by decide)
        · rintro ⟨-, hnF⟩
          exact absurd hF hnF
    | false =>
      have hnF : ¬ ∃ kw ∈ FACT_KEYWORDS, kw.data <:+: (pyLower content).data := by
        intro hx
        exact Bool.false_ne_true (hf.symm.trans (hfiff.mpr hx))
      rw [hf] at hred
      simp only [Bool.false_eq_true, if_false] at hred
      refine ⟨?_, ?_, ?_, by decide⟩
      · constructor
        · intro hc
          rw [hred] at hc
          exact absurd hc (by decide)
        · intro hx
          exact absurd hx hnW
      · constructor
        · intro hc
          rw [hred] at hc
          exact absurd hc (by decide)
        · rintro ⟨-, hF⟩
          exact absurd hF hnF
      · exact ⟨fun _ => ⟨hnW, hnF⟩, fun _ => hred⟩

/-- Witness for C8: the scenario trace is classified "Key Facts". -/
theorem categorize_general_keywords_witness :
    categorize_trace observationTrace "The api server runs on port 4000" = "Key Facts" :=
  (categorize_general_keywords observationTrace "irrelevant" (by decide)).2.2.2

theorem firstContentField_skip (fields : List (String × JVal)) (f : String) (post : List String) :
    ∀ pre : List String, (∀ g ∈ pre, fields.lookup g = none) →
      firstContentField fields (pre ++ f :: post) = firstContentField fields (f :: post) := by
  intro pre
  induction pre with
  | nil => intro _; rfl
  | cons g gs ih =>
    intro hpre
    have hg : fields.lookup g = none := hpre g (List.mem_cons_self _ _)
    show firstContentField fields (g :: (gs ++ f :: post)) = _
    simp only [firstContentField, hg]
    exact ih (fun g' hg' => hpre g' (List.mem_cons_of_mem _ hg'))

theorem pyStrip_of_all_whitespace {s : String} (h : ∀ c ∈ s.data, c.isWhitespace) :
    pyStrip s = "" := by
  unfold pyStrip stripChars
  have h1 : s.data.dropWhile Char.isWhitespace = [] :=
    List.dropWhile_eq_nil_iff.mpr (fun c hc => h c hc)
  rw [h1]
  rfl

/-- C9: when the first present priority field of a mapping payload holds a
non-empty whitespace-only string, `extract_content` returns the empty string
without falling through, and the trace contributes nothing to any section. -/
theorem extract_content_blank_field (trace : Trace) (fields : List (String × JVal))
    (pre : List String) (f : String) (post : List String) (s : String)
    (hhint : trace.reconstruction_hint = .jobj fields)
    (hsplit : CONTENT_FIELDS = pre ++ f :: post)
    (hpre : ∀ g ∈ pre, fields.lookup g = none)
    (hf : fields.lookup f = some (.jstr s))
    (hs : ¬ s = "")
    (hws : ∀ c ∈ s.data, c.isWhitespace) :
    extract_content trace = "" ∧
      ∀ l₁ l₂ : List Trace, build_sections (l₁ ++ trace :: l₂) = build_sections (l₁ ++ l₂) := by
  have hfirst : firstContentField fields CONTENT_FIELDS = some "" := by
    rw [hsplit, firstContentField_skip fields f post pre hpre]
    simp only [firstContentField, hf, if_neg hs]
    rw [pyStrip_of_all_whitespace hws]
  have hext : extract_content trace = "" := by
    simp only [extract_content, hhint, hfirst]
  have hskip : ∀ acc : Sections, addTrace acc trace = acc := by
    intro acc
    simp [addTrace, hext]
  refine ⟨hext, ?_⟩
  intro l₁ l₂
  unfold build_sections
  rw [List.foldl_append, List.foldl_append, List.foldl_cons, hskip]

/-- Witness for C9: a payload whose "content" field is three spaces extracts
to the empty string and the trace builds the same sections as no trace. -/
theorem extract_content_blank_field_witness :
    extract_content blankContentTrace = "" ∧
      build_sections [blankContentTrace] = build_sections [] := by
  have h := extract_content_blank_field blankContentTrace [("content", .jstr "   ")]
    [] "content" ["summary", "key_events", "event"] "   "
    rfl rfl (by simp) rfl (by decide) (by decide)
  exact ⟨h.1, h.2 [] []⟩

end Kudzu
